import Mathlib

/-!
Verification of the EDU_watch course-watcher: a shallow embedding of the
pure core of `main.py` (time/session/exam parsers, header parsing, the
table-row extractor) and `send_updates.py` (snapshot diffing, the session
renderer, message chunking), together with theorems settling the frozen
claims about the natural-language specification.

Strings are modelled as Lean `String`/`List Char`; Python dictionaries as
association lists (with no-duplicate-key hypotheses where Python's dict
invariant matters); Python `None` as `Option`; exceptions as `Option`
results.  The character class `\d` of Python's `re` module is modelled by
the digit ranges that occur in this application's data (ASCII digits plus
the Arabic-Indic and Extended Arabic-Indic digits); Python `str.strip()`
whitespace is modelled by the ASCII whitespace characters.
-/

namespace EduWatch

/-! ### Basic character/string helpers -/

/-- Python whitespace (`str.strip`, `\s`), restricted to the ASCII range. -/
def pyIsSpace (c : Char) : Bool :=
  c = ' ' || c = '\t' || c = '\n' || c = '\r' || c = '\x0b' || c = '\x0c'

/-- Python `\d` / `str.isdigit`, restricted to the digit ranges occurring in
this application: ASCII `0-9`, Arabic-Indic `U+0660-0669`, Extended
Arabic-Indic `U+06F0-06F9`. -/
def pyIsDigit (c : Char) : Bool :=
  (('0' ≤ c && c ≤ '9') || ('٠' ≤ c && c ≤ '٩')
    || ('۰' ≤ c && c ≤ '۹'))

/-- Numeric value of a digit character accepted by `pyIsDigit`. -/
def digitVal (c : Char) : Nat :=
  if '0' ≤ c && c ≤ '9' then c.toNat - '0'.toNat
  else if '٠' ≤ c && c ≤ '٩' then c.toNat - 0x660
  else c.toNat - 0x6F0

/-- Value of a digit string (used to model Python `int(...)` on the
already-validated digit groups captured by the regexes). -/
def digitsVal (cs : List Char) : Nat :=
  cs.foldl (fun acc c => 10 * acc + digitVal c) 0

/-- Python `str.split(c)` for a single-character separator. -/
def splitOnChar (sep : Char) : List Char → List (List Char)
  | [] => [[]]
  | c :: rest =>
    let r := splitOnChar sep rest
    if c = sep then [] :: r
    else
      match r with
      | [] => [[c]]
      | piece :: pieces => (c :: piece) :: pieces

/-- Python `str.strip()` (ASCII whitespace model). -/
def pyStrip (cs : List Char) : List Char :=
  ((cs.dropWhile pyIsSpace).reverse.dropWhile pyIsSpace).reverse

/-- Python substring containment (`kw in text`). -/
def strContains (text kw : String) : Bool :=
  decide (kw.data <:+: text.data)

/-- Index of the first occurrence of `sep` in `cs` (Python `str.find`). -/
def findSeq (sep : List Char) : List Char → Option Nat
  | [] => none
  | cs@(_ :: rest) =>
    if sep.isPrefixOf cs then some 0 else (findSeq sep rest).map (· + 1)

def splitOnSeqAux (sep : List Char) : Nat → List Char → List (List Char)
  | 0, cs => [cs]
  | fuel + 1, cs =>
    match findSeq sep cs with
    | none => [cs]
    | some i => cs.take i :: splitOnSeqAux sep fuel (cs.drop (i + sep.length))

/-- Python `str.split(sep)` for a non-empty separator: split on every
non-overlapping occurrence, left to right. -/
def pySplitSeq (sep cs : List Char) : List (List Char) :=
  splitOnSeqAux sep cs.length cs

/-- Assoc-list lookup modelling Python dict subscription / `in`. -/
def alookup {α β : Type} [DecidableEq α] (k : α) : List (α × β) → Option β
  | [] => none
  | (k', v) :: rest => if k' = k then some v else alookup k rest

/-! ### Data model (`main.py` dataclasses, JSON values) -/

/-- One weekly occurrence of a course (`CourseSession` in `main.py`). -/
structure CourseSession where
  day_of_week : Nat
  start_time : String
  end_time : String
deriving DecidableEq, Repr

/-- A JSON-ish field value as it occurs in the persisted snapshots:
strings, integers, `null`, or an array of sessions. -/
inductive JVal where
  | s : String → JVal
  | n : Int → JVal
  | null : JVal
  | sessions : List CourseSession → JVal
deriving DecidableEq, Repr

/-- One course record of a persisted snapshot: field name → value
(a Python dict in `send_updates.py`). -/
abbrev JRec := List (String × JVal)

/-- A snapshot: course key → record. -/
abbrev Snap := List (String × JRec)

/-! ### `fix_time_format` (main.py) -/

/-- `fix_time_format` from `main.py`: split on `:`; when there are exactly
two parts, left-pad a 1-character hour with `0` and append a `0` to a
1-character minute; otherwise return the input unchanged. -/
def fix_time_format (time_str : String) : String :=
  match splitOnChar ':' time_str.data with
  | [h, m] =>
    let h' := if h.length = 1 then '0' :: h else h
    let m' := if m.length = 1 then m ++ ['0'] else m
    String.mk (h' ++ ':' :: m')
  | _ => time_str

lemma splitOnChar_append_sep (sep : Char) (h : List Char)
    (hh : sep ∉ h) (m : List Char) :
    splitOnChar sep (h ++ sep :: m) = h :: splitOnChar sep m := by
  induction h with
  | nil => simp [splitOnChar]
  | cons c cs ih =>
    simp only [List.mem_cons, not_or] at hh
    have hc : ¬c = sep := fun e => hh.1 e.symm
    simp only [List.cons_append, splitOnChar, List.append_eq, ih hh.2, if_neg hc]

lemma splitOnChar_no_sep (sep : Char) (h : List Char) (hh : sep ∉ h) :
    splitOnChar sep h = [h] := by
  induction h with
  | nil => rfl
  | cons c cs ih =>
    simp only [List.mem_cons, not_or] at hh
    have hc : ¬c = sep := fun e => hh.1 e.symm
    simp [splitOnChar, ih hh.2, if_neg hc]

/-! ### Diff engine (`compare_courses` in `send_updates.py`) -/

/-- Keys of a snapshot (Python `data.keys()`). -/
def keysOf (s : Snap) : List String := s.map Prod.fst

/-- Python `record.get(field, default)`. -/
def getField (r : JRec) (f : String) (dflt : JVal) : JVal :=
  (alookup f r).getD dflt

/-- Python dict equality `==` on two records (under the dict invariant of
unique keys): same key set, equal values. -/
def dictEq (a b : JRec) : Bool :=
  a.all (fun kv => decide (alookup kv.1 b = some kv.2)) &&
  b.all (fun kv => decide (alookup kv.1 a = some kv.2))

/-- The inner changeset loop of `compare_courses`: iterate the new record's
fields in order; a field also present in the old record whose value
differs contributes `(field, old, new)`. -/
def changesOf (oldR newR : JRec) : List (String × JVal × JVal) :=
  newR.foldl (fun acc kv =>
    match alookup kv.1 oldR with
    | some ov => if kv.2 ≠ ov then acc ++ [(kv.1, ov, kv.2)] else acc
    | none => acc) []

/-- Python `d[k] = v` on an assoc-list dict: overwrite in place if the key
exists, else append. -/
def dset {α β : Type} [DecidableEq α] (d : List (α × β)) (k : α) (v : β) :
    List (α × β) :=
  if (alookup k d).isSome then
    d.map (fun kv => if kv.1 = k then (k, v) else kv)
  else d ++ [(k, v)]

/-- `grouped.setdefault(dept, dict())[k] = v`, the insertion step shared by
`group_by_department` and the update grouping. -/
def ginsert {β : Type} (g : List (JVal × List (String × β))) (dept : JVal)
    (k : String) (v : β) : List (JVal × List (String × β)) :=
  dset g dept (dset ((alookup dept g).getD []) k v)

/-- `group_by_department` from `compare_courses`: bucket each key's record
under the record's `Department` field (`"Unknown"` when absent). -/
def group_by_department (keys : List String) (src : Snap) :
    List (JVal × Snap) :=
  keys.foldl (fun g k =>
    let r := (alookup k src).getD []
    ginsert g (getField r "Department" (JVal.s "Unknown")) k r) []

/-- The flat pre-grouping update list of `compare_courses`
(`updated_temp`): for each common key whose records compare unequal and
whose changeset is non-empty, `(key, department, name, changes)`. -/
def updated_temp (old_data new_data : Snap) :
    List (String × JVal × JVal × List (String × JVal × JVal)) :=
  ((keysOf old_data).filter (fun k => decide (k ∈ keysOf new_data))).foldl
    (fun acc k =>
      let oldR := (alookup k old_data).getD []
      let newR := (alookup k new_data).getD []
      if dictEq newR oldR then acc
      else
        let chs := changesOf oldR newR
        if chs = [] then acc
        else acc ++ [(k, getField newR "Department" (JVal.s "Unknown"),
                      getField newR "Name" (JVal.s "Unknown"), chs)]) []

/-- `compare_courses(old_data, new_data)` from `send_updates.py`: returns
`(added, removed, updated)`, each grouped by department. -/
def compare_courses (old_data new_data : Snap) :
    List (JVal × Snap) × List (JVal × Snap) ×
      List (JVal × List (String × JVal × List (String × JVal × JVal))) :=
  let old_keys := keysOf old_data
  let new_keys := keysOf new_data
  let added_keys := new_keys.filter (fun k => decide (k ∉ old_keys))
  let removed_keys := old_keys.filter (fun k => decide (k ∉ new_keys))
  let added := group_by_department added_keys new_data
  let removed := group_by_department removed_keys old_data
  let updated := (updated_temp old_data new_data).foldl
    (fun g e => ginsert g e.2.1 e.1 (e.2.2.1, e.2.2.2)) []
  (added, removed, updated)

/-! ### Assoc-list lemmas -/

lemma alookup_mem {α β : Type} [DecidableEq α] {k : α} {v : β}
    {l : List (α × β)} (h : alookup k l = some v) : (k, v) ∈ l := by
  induction l with
  | nil => simp [alookup] at h
  | cons p rest ih =>
    obtain ⟨k', v'⟩ := p
    rw [alookup] at h
    split at h
    · rename_i he
      cases h
      subst he
      exact List.mem_cons_self _ _
    · exact List.mem_cons_of_mem _ (ih h)

lemma alookup_isSome {α β : Type} [DecidableEq α] {k : α} {l : List (α × β)}
    (h : k ∈ l.map Prod.fst) : (alookup k l).isSome = true := by
  induction l with
  | nil => simp at h
  | cons p rest ih =>
    rw [alookup]
    split
    · rfl
    · rename_i hne
      simp only [List.map_cons, List.mem_cons] at h
      rcases h with he | hm
      · exact absurd he.symm hne
      · exact ih hm

lemma alookup_of_mem_nodup {α β : Type} [DecidableEq α] {k : α} {v : β}
    {l : List (α × β)} (hn : (l.map Prod.fst).Nodup) (h : (k, v) ∈ l) :
    alookup k l = some v := by
  induction l with
  | nil => simp at h
  | cons p rest ih =>
    simp only [List.map_cons, List.nodup_cons] at hn
    rcases List.mem_cons.mp h with he | hm
    · cases he
      simp [alookup]
    · rw [alookup]
      split
      · rename_i he
        exact absurd (he ▸ (List.mem_map_of_mem Prod.fst hm)) hn.1
      · exact ih hn.2 hm

lemma dictEq_refl {r : JRec} (hn : (r.map Prod.fst).Nodup) :
    dictEq r r = true := by
  rw [dictEq]
  have : ∀ kv ∈ r, alookup kv.1 r = some kv.2 := fun kv hkv =>
    alookup_of_mem_nodup hn hkv
  simp only [Bool.and_self, List.all_eq_true]
  intro kv hkv
  simpa using this kv hkv

lemma foldl_id {α β : Type} {f : β → α → β} {l : List α}
    (h : ∀ acc x, x ∈ l → f acc x = acc) (acc : β) : l.foldl f acc = acc := by
  induction l generalizing acc with
  | nil => rfl
  | cons x rest ih =>
    rw [List.foldl_cons, h acc x (List.mem_cons_self _ _)]
    exact ih (fun a y hy => h a y (List.mem_cons_of_mem _ hy)) acc

lemma alookup_eq_none {α β : Type} [DecidableEq α] {k : α} {l : List (α × β)} :
    alookup k l = none ↔ k ∉ l.map Prod.fst := by
  induction l with
  | nil => simp [alookup]
  | cons p rest ih =>
    rw [alookup]
    split
    · rename_i he
      simp [he]
    · rename_i hne
      simp only [List.map_cons, List.mem_cons, ih]
      constructor
      · rintro h (he | hm)
        · exact hne he.symm
        · exact h hm
      · intro h
        exact fun hm => h (Or.inr hm)

/-- All `(key, value)` pairs sitting in any department bucket of a grouped
structure. -/
def allPairs {β : Type} (g : List (JVal × List (String × β))) :
    List (String × β) :=
  (g.map Prod.snd).flatten

lemma mem_allPairs {β : Type} {g : List (JVal × List (String × β))}
    {x : String × β} : x ∈ allPairs g ↔ ∃ p ∈ g, x ∈ p.2 := by
  simp only [allPairs, List.mem_flatten, List.mem_map]
  constructor
  · rintro ⟨b, ⟨p, hp, rfl⟩, hx⟩
    exact ⟨p, hp, hx⟩
  · rintro ⟨p, hp, hx⟩
    exact ⟨p.2, ⟨p, hp, rfl⟩, hx⟩

lemma deptKeys_ginsert {β : Type} {g : List (JVal × List (String × β))}
    (hg : (g.map Prod.fst).Nodup) (d : JVal) (k0 : String) (v : β) :
    ((ginsert g d k0 v).map Prod.fst).Nodup := by
  rw [ginsert, dset]
  split
  · have : (g.map fun kv => if kv.1 = d then (d, dset ((alookup d g).getD []) k0 v) else kv).map Prod.fst
        = g.map Prod.fst := by
      rw [List.map_map]
      refine List.map_congr_left fun p _ => ?_
      by_cases hp : p.1 = d <;> simp [hp]
    rw [this]
    exact hg
  · rename_i hnone
    have hd : d ∉ g.map Prod.fst := by
      rw [← alookup_eq_none]
      cases he : alookup d g with
      | none => rfl
      | some b => rw [he] at hnone; simp at hnone
    simp [List.nodup_append, hg, hd]

lemma allPairs_ginsert_mem {β : Type} {g : List (JVal × List (String × β))}
    (hg : (g.map Prod.fst).Nodup) {k0 : String}
    (hk : ∀ e, (k0, e) ∉ allPairs g) (d : JVal) (v : β) (x : String × β) :
    x ∈ allPairs (ginsert g d k0 v) ↔ x ∈ allPairs g ∨ x = (k0, v) := by
  rw [ginsert]
  cases hd : alookup d g with
  | none =>
    have h1 : dset ((none : Option (List (String × β))).getD []) k0 v = [(k0, v)] := by
      simp [dset, alookup]
    rw [h1, dset]
    split
    · rename_i hsome
      rw [hd] at hsome
      simp at hsome
    · simp only [mem_allPairs]
      constructor
      · rintro ⟨p, hp, hx⟩
        rcases List.mem_append.mp hp with hpg | hp1
        · exact Or.inl ⟨p, hpg, hx⟩
        · simp only [List.mem_singleton] at hp1
          subst hp1
          simp only [List.mem_singleton] at hx
          exact Or.inr hx
      · rintro (⟨p, hp, hx⟩ | rfl)
        · exact ⟨p, List.mem_append_left _ hp, hx⟩
        · exact ⟨(d, [(k0, v)]), List.mem_append_right _ (List.mem_singleton_self _), List.mem_singleton_self _⟩
  | some b =>
    have hbg : (d, b) ∈ g := alookup_mem hd
    have hk0b : k0 ∉ b.map Prod.fst := by
      intro hmem
      obtain ⟨e, he⟩ := Option.isSome_iff_exists.mp (alookup_isSome hmem)
      exact hk e (mem_allPairs.mpr ⟨(d, b), hbg, alookup_mem he⟩)
    have hbset : dset b k0 v = b ++ [(k0, v)] := by
      rw [dset]
      split
      · rename_i hsome
        rw [alookup_eq_none.mpr hk0b] at hsome
        simp at hsome
      · rfl
    have hgd : (alookup d g).isSome = true := by simp [hd]
    simp only [Option.getD_some, hbset]
    rw [dset, if_pos hgd]
    simp only [mem_allPairs, List.mem_map]
    constructor
    · rintro ⟨p, ⟨q, hq, rfl⟩, hx⟩
      by_cases hqd : q.1 = d
      · simp only [hqd, if_true] at hx
        have : alookup q.1 g = some q.2 := alookup_of_mem_nodup hg hq
        rw [hqd, hd] at this
        have hq2 : q.2 = b := by injection this with h; exact h.symm
        rcases List.mem_append.mp hx with hxb | hx1
        · exact Or.inl ⟨q, hq, by rwa [hq2]⟩
        · simp only [List.mem_singleton] at hx1
          exact Or.inr hx1
      · simp only [hqd, if_false] at hx
        exact Or.inl ⟨q, hq, hx⟩
    · rintro (⟨p, hp, hx⟩ | rfl)
      · refine ⟨if p.1 = d then (d, b ++ [(k0, v)]) else p, ⟨p, hp, rfl⟩, ?_⟩
        by_cases hpd : p.1 = d
        · have : alookup p.1 g = some p.2 := alookup_of_mem_nodup hg hp
          rw [hpd, hd] at this
          have hp2 : p.2 = b := by injection this with h; exact h.symm
          simp only [hpd, if_true]
          exact List.mem_append_left _ (hp2 ▸ hx)
        · simpa [hpd] using hx
      · refine ⟨(d, b ++ [(k0, v)]), ⟨(d, b), hbg, by simp⟩, ?_⟩
        exact List.mem_append_right _ (List.mem_singleton_self _)

lemma foldl_append_filterMap {α β : Type} (f : α → Option β)
    (step : List β → α → List β)
    (hstep : ∀ a x, step a x = match f x with | some y => a ++ [y] | none => a)
    (l : List α) (acc : List β) :
    l.foldl step acc = acc ++ l.filterMap f := by
  induction l generalizing acc with
  | nil => simp
  | cons x rest ih =>
    rw [List.foldl_cons, hstep, List.filterMap_cons]
    cases hf : f x with
    | none => simp only [ih]
    | some y => simp only [ih, List.append_assoc, List.singleton_append]

/-- One step of the `updated_temp` loop, as a partial map on common keys. -/
def utStep (old_data new_data : Snap) (k : String) :
    Option (String × JVal × JVal × List (String × JVal × JVal)) :=
  let oldR := (alookup k old_data).getD []
  let newR := (alookup k new_data).getD []
  if dictEq newR oldR then none
  else if changesOf oldR newR = [] then none
  else some (k, getField newR "Department" (JVal.s "Unknown"),
             getField newR "Name" (JVal.s "Unknown"), changesOf oldR newR)

lemma updated_temp_eq (old_data new_data : Snap) :
    updated_temp old_data new_data =
      ((keysOf old_data).filter (fun k => decide (k ∈ keysOf new_data))).filterMap
        (utStep old_data new_data) := by
  rw [updated_temp]
  rw [foldl_append_filterMap (utStep old_data new_data) _ ?_]
  · rw [List.nil_append]
  · intro a k
    rw [utStep]
    by_cases h1 : dictEq ((alookup k new_data).getD []) ((alookup k old_data).getD []) = true
    · simp [h1]
    · rw [Bool.not_eq_true] at h1
      by_cases h2 : changesOf ((alookup k old_data).getD []) ((alookup k new_data).getD []) = []
      · simp [h1, h2]
      · simp [h1, h2]

lemma utStep_key {old_data new_data : Snap} {k : String} {x} :
    utStep old_data new_data k = some x → x.1 = k := by
  rw [utStep]
  split
  · intro h; cases h
  · split
    · intro h; cases h
    · intro h; cases h; rfl

lemma filterMap_key_sublist {α β : Type} (f : α → Option (α × β)) (l : List α)
    (hf : ∀ k x, f k = some x → x.1 = k) :
    List.Sublist ((l.filterMap f).map Prod.fst) l := by
  induction l with
  | nil => simp
  | cons k rest ih =>
    rw [List.filterMap_cons]
    cases hk : f k with
    | none => exact ih.cons k
    | some x =>
      rw [List.map_cons, hf k x hk]
      exact ih.cons₂ k

/-- One pairing of `(year, name, changes)` entry carried per updated key. -/
lemma allPairs_updFold
    {l : List (String × JVal × JVal × List (String × JVal × JVal))}
    (hl : (l.map Prod.fst).Nodup)
    (g : List (JVal × List (String × JVal × List (String × JVal × JVal))))
    (hg : (g.map Prod.fst).Nodup)
    (hdisj : ∀ x ∈ l, ∀ e, (x.1, e) ∉ allPairs g)
    (y : String × JVal × List (String × JVal × JVal)) :
    (y ∈ allPairs (l.foldl (fun g e => ginsert g e.2.1 e.1 (e.2.2.1, e.2.2.2)) g) ↔
      y ∈ allPairs g ∨ ∃ x ∈ l, x.1 = y.1 ∧ (x.2.2.1, x.2.2.2) = y.2) := by
  induction l generalizing g with
  | nil => simp
  | cons a rest ih =>
    rw [List.foldl_cons]
    simp only [List.map_cons, List.nodup_cons] at hl
    have hfresh : ∀ e, (a.1, e) ∉ allPairs g :=
      fun e => hdisj a (List.mem_cons_self _ _) e
    have hstep := fun y => allPairs_ginsert_mem hg hfresh a.2.1 (a.2.2.1, a.2.2.2) y
    have hg' := deptKeys_ginsert hg a.2.1 a.1 (a.2.2.1, a.2.2.2)
    have hdisj' : ∀ x ∈ rest, ∀ e,
        (x.1, e) ∉ allPairs (ginsert g a.2.1 a.1 (a.2.2.1, a.2.2.2)) := by
      intro x hx e hmem
      rcases (hstep (x.1, e)).mp hmem with hin | heq
      · exact hdisj x (List.mem_cons_of_mem _ hx) e hin
      · have hxa : x.1 = a.1 := by
          have := congrArg Prod.fst heq
          simpa using this
        exact hl.1 (by rw [← hxa]; exact List.mem_map_of_mem Prod.fst hx)
    rw [ih hl.2 _ hg' hdisj']
    simp only [hstep]
    constructor
    · rintro ((hy | rfl) | ⟨x, hx, hk, he⟩)
      · exact Or.inl hy
      · exact Or.inr ⟨a, List.mem_cons_self _ _, rfl, rfl⟩
      · exact Or.inr ⟨x, List.mem_cons_of_mem _ hx, hk, he⟩
    · rintro (hy | ⟨x, hx, hk, he⟩)
      · exact Or.inl (Or.inl hy)
      · rcases List.mem_cons.mp hx with rfl | hxr
        · refine Or.inl (Or.inr ?_)
          obtain ⟨y1, y2⟩ := y
          simp only at hk he
          rw [← hk, ← he]
        · exact Or.inr ⟨x, hxr, hk, he⟩

lemma filterMap_singleton_of_unique_key {α β γ : Type} [DecidableEq α]
    {l : List (α × β)} (hn : (l.map Prod.fst).Nodup) {k0 : α} {v0 : β}
    (hmem : (k0, v0) ∈ l) {f : α × β → Option γ}
    (hnone : ∀ kv ∈ l, kv.1 ≠ k0 → f kv = none) {c : γ}
    (hc : f (k0, v0) = some c) : l.filterMap f = [c] := by
  induction l with
  | nil => simp at hmem
  | cons kv rest ih =>
    simp only [List.map_cons, List.nodup_cons] at hn
    rw [List.filterMap_cons]
    rcases List.mem_cons.mp hmem with rfl | hmr
    · rw [hc]
      have hrest : rest.filterMap f = [] := by
        rw [List.filterMap_eq_nil_iff]
        intro x hx
        refine hnone x (List.mem_cons_of_mem _ hx) ?_
        intro he
        have hmem2 : x.1 ∈ List.map Prod.fst rest := List.mem_map_of_mem Prod.fst hx
        rw [he] at hmem2
        exact hn.1 hmem2
      rw [hrest]
    · have hne : kv.1 ≠ k0 := by
        intro he
        exact hn.1 (by rw [he]; exact List.mem_map_of_mem Prod.fst hmr)
      rw [hnone kv (List.mem_cons_self _ _) hne]
      exact ih hn.2 hmr (fun x hx => hnone x (List.mem_cons_of_mem _ hx))

/-- The per-field test of the changeset loop, as a partial map. -/
def changeAt (oldR : JRec) (kv : String × JVal) :
    Option (String × JVal × JVal) :=
  match alookup kv.1 oldR with
  | some ov => if kv.2 ≠ ov then some (kv.1, ov, kv.2) else none
  | none => none

lemma changesOf_eq (oldR newR : JRec) :
    changesOf oldR newR = newR.filterMap (changeAt oldR) := by
  rw [changesOf]
  rw [foldl_append_filterMap (changeAt oldR) _ ?_]
  · rw [List.nil_append]
  · intro a kv
    rw [changeAt]
    cases h : alookup kv.1 oldR with
    | none => simp
    | some ov =>
      by_cases hne : kv.2 = ov <;> simp [hne]

lemma changesOf_mem_iff {oldR newR : JRec}
    (hnr : (newR.map Prod.fst).Nodup) (f : String) (ov nv : JVal) :
    (f, ov, nv) ∈ changesOf oldR newR ↔
      alookup f oldR = some ov ∧ alookup f newR = some nv ∧ nv ≠ ov := by
  rw [changesOf_eq, List.mem_filterMap]
  constructor
  · rintro ⟨kv, hkv, hc⟩
    rw [changeAt] at hc
    split at hc
    · rename_i ov' ho
      split at hc
      · rename_i hne
        cases hc
        exact ⟨ho, alookup_of_mem_nodup hnr hkv, hne⟩
      · cases hc
    · cases hc
  · rintro ⟨ho, hn, hne⟩
    refine ⟨(f, nv), alookup_mem hn, ?_⟩
    rw [changeAt]
    simp only [ho, if_pos hne]

lemma dictEq_false_of_changes {oldR newR : JRec}
    (hnr : (newR.map Prod.fst).Nodup)
    (h : changesOf oldR newR ≠ []) : dictEq newR oldR = false := by
  obtain ⟨c, hc⟩ := List.exists_mem_of_ne_nil _ h
  obtain ⟨f, ov, nv⟩ := c
  obtain ⟨ho, hn, hne⟩ := (changesOf_mem_iff hnr f ov nv).mp hc
  rw [Bool.eq_false_iff]
  intro htrue
  rw [dictEq, Bool.and_eq_true, List.all_eq_true] at htrue
  have := htrue.1 (f, nv) (alookup_mem hn)
  rw [decide_eq_true_iff] at this
  rw [ho] at this
  have h2 : ov = nv := by injection this
  exact hne h2.symm

/-! ### Claim C1: update changesets are exactly the differing common fields -/

/-- C1: for snapshots `old`/`new` (Python dict invariants as `Nodup`
hypotheses) and a key `k` present in both with records `oldR`/`newR`:
the changeset contains `(f, old, new)` exactly for the field names present
in both records with differing values (so fields present in only one
record are never reported); if the changeset is empty the key is reported
in no department bucket of the updated grouping of `compare_courses`, and
if it is non-empty the key is reported with name and exactly this
changeset; and for records differing only in `Registered` the changeset is
exactly `[("Registered", old, new)]`. -/
theorem compare_courses_updated_spec
    (old_data new_data : Snap) (k : String) (oldR newR : JRec)
    (hold : (keysOf old_data).Nodup)
    (hko : alookup k old_data = some oldR)
    (hkn : alookup k new_data = some newR)
    (hnr : (newR.map Prod.fst).Nodup) :
    (∀ f ov nv, (f, ov, nv) ∈ changesOf oldR newR ↔
        alookup f oldR = some ov ∧ alookup f newR = some nv ∧ nv ≠ ov) ∧
    (changesOf oldR newR = [] →
      ∀ e, (k, e) ∉ allPairs (compare_courses old_data new_data).2.2) ∧
    (changesOf oldR newR ≠ [] →
      (k, getField newR "Name" (JVal.s "Unknown"), changesOf oldR newR)
        ∈ allPairs (compare_courses old_data new_data).2.2) ∧
    (∀ ov nv, alookup "Registered" oldR = some ov →
      alookup "Registered" newR = some nv → nv ≠ ov →
      (∀ f, f ≠ "Registered" → alookup f oldR = alookup f newR) →
      changesOf oldR newR = [("Registered", ov, nv)]) := by
  have hupd : (compare_courses old_data new_data).2.2 =
      (updated_temp old_data new_data).foldl
        (fun g e => ginsert g e.2.1 e.1 (e.2.2.1, e.2.2.2)) [] := rfl
  have hutkeys : ((updated_temp old_data new_data).map Prod.fst).Nodup := by
    rw [updated_temp_eq]
    exact ((filterMap_key_sublist _ _
      (fun k x h => utStep_key h)).nodup (hold.filter _))
  have hfold := fun y => allPairs_updFold hutkeys [] (by simp)
    (by intro x _ e h; simp [allPairs] at h) y
  refine ⟨fun f ov nv => changesOf_mem_iff hnr f ov nv, ?_, ?_, ?_⟩
  · -- empty changeset: not reported
    intro hchs e hmem
    rw [hupd] at hmem
    rcases (hfold (k, e)).mp hmem with hin | ⟨x, hx, hk, _⟩
    · simp [allPairs] at hin
    · rw [updated_temp_eq, List.mem_filterMap] at hx
      obtain ⟨k', _, hstep⟩ := hx
      have : x.1 = k' := utStep_key hstep
      rw [this] at hk
      subst hk
      rw [utStep] at hstep
      simp only [hko, hkn, Option.getD_some] at hstep
      split at hstep
      · cases hstep
      · simp [hchs] at hstep
  · -- non-empty changeset: reported with exactly this changeset
    intro hchs
    have hmemut : (k, getField newR "Department" (JVal.s "Unknown"),
        getField newR "Name" (JVal.s "Unknown"), changesOf oldR newR)
        ∈ updated_temp old_data new_data := by
      rw [updated_temp_eq, List.mem_filterMap]
      refine ⟨k, ?_, ?_⟩
      · rw [List.mem_filter]
        refine ⟨List.mem_map_of_mem Prod.fst (alookup_mem hko), ?_⟩
        rw [decide_eq_true_iff]
        exact List.mem_map_of_mem Prod.fst (alookup_mem hkn)
      · rw [utStep]
        simp only [hko, hkn, Option.getD_some]
        rw [dictEq_false_of_changes hnr hchs]
        simp only [Bool.false_eq_true, if_false, if_neg hchs]
    rw [hupd]
    exact (hfold _).mpr (Or.inr ⟨_, hmemut, rfl, rfl⟩)
  · -- Registered-only difference
    intro ov nv ho hn hne hsame
    rw [changesOf_eq]
    refine filterMap_singleton_of_unique_key hnr (alookup_mem hn) ?_ ?_
    · intro kv hkv hkne
      rw [changeAt]
      have hl : alookup kv.1 newR = some kv.2 := alookup_of_mem_nodup hnr hkv
      rw [← hsame kv.1 hkne] at hl
      simp [hl]
    · rw [changeAt]
      simp only [ho, if_pos hne]

/-- Witness for C1 at the end-to-end scenario snapshots (two one-record
snapshots differing only in `Registered`). -/
theorem compare_courses_updated_spec_witness :
    changesOf
        [("Name", JVal.s "X"), ("Registered", JVal.n 30), ("Department", JVal.s "CS")]
        [("Name", JVal.s "X"), ("Registered", JVal.n 32), ("Department", JVal.s "CS")]
      = [("Registered", JVal.n 30, JVal.n 32)] := by
  have h := compare_courses_updated_spec
    [("101-1", [("Name", JVal.s "X"), ("Registered", JVal.n 30), ("Department", JVal.s "CS")])]
    [("101-1", [("Name", JVal.s "X"), ("Registered", JVal.n 32), ("Department", JVal.s "CS")])]
    "101-1"
    [("Name", JVal.s "X"), ("Registered", JVal.n 30), ("Department", JVal.s "CS")]
    [("Name", JVal.s "X"), ("Registered", JVal.n 32), ("Department", JVal.s "CS")]
    (by decide) (by decide) (by decide) (by decide)
  refine h.2.2.2 (JVal.n 30) (JVal.n 32) (by decide) (by decide) (by decide) ?_
  intro f hf
  have hrf : ("Registered" = f) = False := eq_false fun e => hf e.symm
  simp [alookup, hrf]

/-- C2: for every snapshot `S` (with the Python dict invariant that each
record's field names are duplicate-free), `compare_courses S S` yields
empty added, removed and updated groupings. -/
theorem compare_courses_self (S : Snap)
    (h : ∀ p ∈ S, (p.2.map Prod.fst).Nodup) :
    compare_courses S S = ([], [], []) := by
  have hadded : (keysOf S).filter (fun k => decide (k ∉ keysOf S)) = [] := by
    rw [List.filter_eq_nil_iff]
    intro k hk
    simp [hk]
  have hupd : updated_temp S S = [] := by
    rw [updated_temp]
    refine foldl_id (fun acc k hk => ?_) []
    have hk' : k ∈ keysOf S := List.mem_of_mem_filter hk
    obtain ⟨r, hr⟩ := Option.isSome_iff_exists.mp (alookup_isSome hk')
    simp [hr, dictEq_refl (h (k, r) (alookup_mem hr))]
  rw [compare_courses]
  simp only [hadded, hupd, group_by_department, List.foldl_nil]

/-- Witness for C2 at a concrete one-record snapshot. -/
theorem compare_courses_self_witness :
    compare_courses [("101-1", [("Name", JVal.s "X"), ("Registered", JVal.n 30)])]
        [("101-1", [("Name", JVal.s "X"), ("Registered", JVal.n 30)])] =
      ([], [], []) :=
  compare_courses_self _ (by decide)

/-! ### Claim C3: added/removed antisymmetry -/

/-- C3: for all snapshots `A`, `B`, the added grouping of
`compare_courses A B` coincides with the removed grouping of
`compare_courses B A` and vice versa, including the per-department
grouping and the records carried in it. -/
theorem compare_courses_antisym (A B : Snap) :
    (compare_courses A B).1 = (compare_courses B A).2.1 ∧
      (compare_courses A B).2.1 = (compare_courses B A).1 :=
  ⟨rfl, rfl⟩

/-! ### Claim C4: `fix_time_format` padding behaviour -/

/-- C4: for every input of shape `H:M` or `HH:MM` (digit parts of length 1
or 2), `fix_time_format` left-pads a single-digit hour with `'0'` and
right-pads a single-digit minute by appending a trailing `'0'`, and is the
identity when both parts already have two digits; in particular
`fix_time_format "9:5" = "09:50"` and `fix_time_format "10:30" = "10:30"`. -/
theorem fix_time_format_pads :
    (∀ h m : List Char, (∀ c ∈ h, pyIsDigit c = true) →
      (∀ c ∈ m, pyIsDigit c = true) →
      (h.length = 1 ∨ h.length = 2) → (m.length = 1 ∨ m.length = 2) →
      fix_time_format (String.mk (h ++ ':' :: m)) =
        String.mk ((if h.length = 1 then '0' :: h else h) ++
          ':' :: (if m.length = 1 then m ++ ['0'] else m))) ∧
    fix_time_format "9:5" = "09:50" ∧ fix_time_format "10:30" = "10:30" := by
  refine ⟨?_, by decide, by decide⟩
  intro h m hd md _ _
  have hh : ':' ∉ h := fun hc => by simpa [pyIsDigit] using hd ':' hc
  have hm : ':' ∉ m := fun hc => by simpa [pyIsDigit] using md ':' hc
  show fix_time_format ⟨h ++ ':' :: m⟩ = _
  simp only [fix_time_format, splitOnChar_append_sep ':' h hh m,
    splitOnChar_no_sep ':' m hm]

/-- Witness for C4 at the concrete input `"9:5"`. -/
theorem fix_time_format_pads_witness : fix_time_format "9:5" = "09:50" := by
  have h := fix_time_format_pads.1 ['9'] ['5'] (by decide) (by decide)
    (Or.inl rfl) (Or.inl rfl)
  simpa using h

/-! ### A small backtracking matcher for the three `re` patterns

Python's `re` engine attempts a match at each position from the left; at a
given position, a greedy quantifier tries its longest candidate first and
backtracks through shorter candidates until the rest of the pattern
matches.  The combinators below realise exactly that priority order for
the three fixed patterns used by `main.py`. -/

/-- Try alternatives in priority order; the first alternative on which the
continuation succeeds wins. -/
def tryAlts {σ β : Type} (alts : List (σ × List Char))
    (k : σ → List Char → Option β) : Option β :=
  match alts with
  | [] => none
  | (s, rest) :: more =>
    match k s rest with
    | some r => some r
    | none => tryAlts more k

/-- Greedy candidates for `p+` at the current position: the non-empty
prefixes of the maximal run of `p`-characters, longest first, each with
the remaining input. -/
def plusAlts (p : Char → Bool) : List Char → List (List Char × List Char)
  | [] => []
  | c :: rest =>
    if p c then
      (plusAlts p rest).map (fun pr => (c :: pr.1, pr.2)) ++ [([c], rest)]
    else []

/-- Greedy candidates for `p*`: as `plusAlts`, plus the empty match last. -/
def starAlts (p : Char → Bool) (cs : List Char) :
    List (List Char × List Char) :=
  plusAlts p cs ++ [([], cs)]

/-- Greedy candidates for `\d{1,2}`: two digits first, then one. -/
def digits12Alts : List Char → List (List Char × List Char)
  | c1 :: c2 :: rest =>
    if pyIsDigit c1 && pyIsDigit c2 then [([c1, c2], rest), ([c1], c2 :: rest)]
    else if pyIsDigit c1 then [([c1], c2 :: rest)]
    else []
  | [c1] => if pyIsDigit c1 then [([c1], [])] else []
  | [] => []

/-- Match a literal, returning the remaining input. -/
def lit : List Char → List Char → Option (List Char)
  | [], cs => some cs
  | _ :: _, [] => none
  | p :: ps, c :: cs => if c = p then lit ps cs else none

/-- Exactly `n` digits (`\d{n}`). -/
def digitsN : Nat → List Char → Option (List Char × List Char)
  | 0, cs => some ([], cs)
  | _ + 1, [] => none
  | n + 1, c :: cs =>
    if pyIsDigit c then (digitsN n cs).map (fun dr => (c :: dr.1, dr.2))
    else none

/-- Generic `re.search` position scan: attempt the position matcher at
every position from the left, returning the first success. -/
def reSearch {γ : Type} (m : List Char → Option γ) : List Char → Option γ
  | [] => none
  | cs@(_ :: rest) =>
    match m cs with
    | some r => some r
    | none => reSearch m rest

/-! ### `parse_course_session` (main.py) -/

/-- One match of the weekly-schedule pattern
`(?P<days>[^\d]+) از (?P<start>\d{1,2}:\d{1,2}) تا (?P<end>\d{1,2}:\d{1,2})`. -/
structure SessionSeg where
  days : List Char
  start : List Char
  stop : List Char
deriving DecidableEq, Repr

/-- Attempt the weekly-schedule pattern at the current position, returning
the captured groups and the input remaining after the match. -/
def matchSessionAt (cs : List Char) : Option (SessionSeg × List Char) :=
  tryAlts (plusAlts (fun c => !pyIsDigit c) cs) fun days r1 =>
    match lit " از ".data r1 with
    | none => none
    | some r2 =>
      tryAlts (digits12Alts r2) fun h1 r3 =>
        match lit [':'] r3 with
        | none => none
        | some r4 =>
          tryAlts (digits12Alts r4) fun m1 r5 =>
            match lit " تا ".data r5 with
            | none => none
            | some r6 =>
              tryAlts (digits12Alts r6) fun h2 r7 =>
                match lit [':'] r7 with
                | none => none
                | some r8 =>
                  tryAlts (digits12Alts r8) fun m2 r9 =>
                    some (⟨days, h1 ++ ':' :: m1, h2 ++ ':' :: m2⟩, r9)

/-- `re.finditer` over the weekly-schedule pattern: scan left to right,
non-overlapping, continuing after each match (fuel-bounded recursion; the
fuel `cs.length` always suffices because every match consumes at least one
character). -/
def finditerSessionsAux : Nat → List Char → List SessionSeg
  | 0, _ => []
  | _ + 1, [] => []
  | fuel + 1, cs@(_ :: rest) =>
    match matchSessionAt cs with
    | some (seg, restAfter) => seg :: finditerSessionsAux fuel restAfter
    | none => finditerSessionsAux fuel rest

def finditerSessions (cs : List Char) : List SessionSeg :=
  finditerSessionsAux cs.length cs

/-- `DAY_OF_WEEK_MAP` from `main.py`. -/
def DAY_OF_WEEK_MAP : List (String × Nat) :=
  [("شنبه", 0), ("یکشنبه", 1), ("دوشنبه", 2), ("سه شنبه", 3),
   ("چهارشنبه", 4), ("پنجشنبه", 5), ("جمعه", 6)]

/-- `parse_course_session` from `main.py`: for every pattern match, split
the day-list on `" و "`, strip each piece, keep recognized day names, and
emit one `CourseSession` per recognized day with the segment's normalized
start/end times. -/
def parse_course_session (input_str : String) : List CourseSession :=
  (finditerSessions input_str.data).foldl (fun acc seg =>
    let start := fix_time_format (String.mk seg.start)
    let stop := fix_time_format (String.mk seg.stop)
    (pySplitSeq " و ".data seg.days).foldl (fun acc2 d =>
      match alookup (String.mk (pyStrip d)) DAY_OF_WEEK_MAP with
      | some i => acc2 ++ [⟨i, start, stop⟩]
      | none => acc2) acc) []

/-- The sessions contributed by one matched segment: recognized day names
(after split and strip), each paired with the segment's normalized
start/end.  Used to state that segments are processed independently. -/
def segSessions (seg : SessionSeg) : List CourseSession :=
  (pySplitSeq " و ".data seg.days).filterMap fun d =>
    (alookup (String.mk (pyStrip d)) DAY_OF_WEEK_MAP).map fun i =>
      ⟨i, fix_time_format (String.mk seg.start), fix_time_format (String.mk seg.stop)⟩

lemma foldl_flatMap_of_step {α β : Type} (f : α → List β)
    (step : List β → α → List β)
    (hstep : ∀ acc x, step acc x = acc ++ f x) (l : List α) (acc : List β) :
    l.foldl step acc = acc ++ l.flatMap f := by
  induction l generalizing acc with
  | nil => simp
  | cons x rest ih =>
    rw [List.foldl_cons, hstep, ih, List.flatMap_cons, List.append_assoc]

lemma parse_course_session_eq (input_str : String) :
    parse_course_session input_str =
      (finditerSessions input_str.data).flatMap segSessions := by
  rw [parse_course_session]
  rw [foldl_flatMap_of_step segSessions _ ?_, List.nil_append]
  intro acc seg
  rw [segSessions]
  rw [foldl_append_filterMap _ _ ?_]
  intro a d
  cases h : alookup (String.mk (pyStrip d)) DAY_OF_WEEK_MAP with
  | none => simp [h]
  | some i => simp [h]

/-! ### `parse_exam_date_time` and `trim_and_nil_if_empty` (main.py) -/

/-- Attempt the exam pattern `(?P<date>\S+)\s*(?P<time>\d{2}:\d{2})` at the
current position, returning the two captured groups. -/
def matchExamAt (cs : List Char) : Option (List Char × List Char) :=
  tryAlts (plusAlts (fun c => !pyIsSpace c) cs) fun date r1 =>
    tryAlts (starAlts pyIsSpace r1) fun _ r2 =>
      match digitsN 2 r2 with
      | none => none
      | some (d1, r3) =>
        match lit [':'] r3 with
        | none => none
        | some r4 =>
          match digitsN 2 r4 with
          | none => none
          | some (d2, _) => some (date, d1 ++ ':' :: d2)

/-- `parse_exam_date_time` from `main.py`: `re.search` for the exam
pattern; `(None, None)` when there is no match, otherwise the two groups. -/
def parse_exam_date_time (input_str : String) : Option String × Option String :=
  match reSearch matchExamAt input_str.data with
  | none => (none, none)
  | some (d, t) => (some (String.mk d), some (String.mk t))

/-- `trim_and_nil_if_empty` from `main.py`. -/
def trim_and_nil_if_empty : Option String → Option String
  | none => none
  | some s =>
    let t := String.mk (pyStrip s.data)
    if t = "" then none else some t

lemma reSearch_eq_none_iff {γ : Type} (m : List Char → Option γ)
    (hnil : m [] = none) (cs : List Char) :
    reSearch m cs = none ↔ ∀ i, m (cs.drop i) = none := by
  induction cs with
  | nil => simp [reSearch, hnil]
  | cons c rest ih =>
    rw [reSearch]
    cases hm : m (c :: rest) with
    | some r =>
      simp only [false_iff, reduceCtorEq]
      intro h
      have := h 0
      rw [List.drop_zero, hm] at this
      cases this
    | none =>
      rw [ih]
      constructor
      · intro h i
        cases i with
        | zero => simpa using hm
        | succ i => simpa using h i
      · intro h i
        simpa using h (i + 1)

lemma reSearch_first {γ : Type} (m : List Char → Option γ)
    (hnil : m [] = none) (cs : List Char) (i : Nat) (r : γ)
    (hm : m (cs.drop i) = some r) (hj : ∀ j, j < i → m (cs.drop j) = none) :
    reSearch m cs = some r := by
  induction cs generalizing i with
  | nil =>
    rw [List.drop_nil, hnil] at hm
    cases hm
  | cons c rest ih =>
    rw [reSearch]
    cases i with
    | zero =>
      rw [List.drop_zero] at hm
      rw [hm]
    | succ i =>
      have h0 := hj 0 (Nat.succ_pos _)
      rw [List.drop_zero] at h0
      rw [h0]
      exact ih i hm (fun j hjlt => hj (j + 1) (Nat.succ_lt_succ hjlt))

/-! ### Claim C6: the exam splitter -/

/-- C6: `parse_exam_date_time` returns the groups of the first position at
which the pattern "non-whitespace token, optional whitespace, `HH:MM`"
matches, and `(None, None)` exactly when no position matches; a component
that is all whitespace is turned into `None` by `trim_and_nil_if_empty`;
in particular `"1403/10/12 14:00"` splits into date and time and
`"no time here"` gives `(None, None)`. -/
theorem parse_exam_date_time_spec :
    parse_exam_date_time "1403/10/12 14:00" = (some "1403/10/12", some "14:00") ∧
    parse_exam_date_time "no time here" = (none, none) ∧
    (∀ s : String, parse_exam_date_time s = (none, none) ↔
      ∀ i, matchExamAt (s.data.drop i) = none) ∧
    (∀ (s : String) (i : Nat) (d t : List Char),
      matchExamAt (s.data.drop i) = some (d, t) →
      (∀ j, j < i → matchExamAt (s.data.drop j) = none) →
      parse_exam_date_time s = (some (String.mk d), some (String.mk t))) ∧
    (∀ s : String, (∀ c ∈ s.data, pyIsSpace c = true) →
      trim_and_nil_if_empty (some s) = none) := by
  have hnil : matchExamAt [] = none := rfl
  refine ⟨by decide, by decide, ?_, ?_, ?_⟩
  · intro s
    constructor
    · intro h
      rw [← reSearch_eq_none_iff _ hnil]
      rw [parse_exam_date_time] at h
      cases hs : reSearch matchExamAt s.data with
      | none => rfl
      | some r =>
        obtain ⟨d, t⟩ := r
        rw [hs] at h
        simp at h
    · intro h
      rw [parse_exam_date_time, (reSearch_eq_none_iff _ hnil _).mpr h]
  · intro s i d t hm hj
    rw [parse_exam_date_time, reSearch_first _ hnil _ i _ hm hj]
  · intro s h
    rw [trim_and_nil_if_empty]
    have hstrip : pyStrip s.data = [] := by
      rw [pyStrip]
      have h1 : s.data.dropWhile pyIsSpace = [] :=
        List.dropWhile_eq_nil_iff.mpr h
      rw [h1]
      rfl
    rw [hstrip]
    rfl

/-- Witness for C6: the iff and first-match statements applied at
concrete inputs, the trim statement at an all-whitespace string. -/
theorem parse_exam_date_time_spec_witness :
    trim_and_nil_if_empty (some "  ") = none ∧
    matchExamAt ("no time here".data.drop 3) = none ∧
    parse_exam_date_time "x 1:23 09:15" = (some "1:23", some "09:15") := by
  refine ⟨parse_exam_date_time_spec.2.2.2.2 "  " (by decide),
    (parse_exam_date_time_spec.2.2.1 "no time here").mp (by decide) 3,
    parse_exam_date_time_spec.2.2.2.1 "x 1:23 09:15" 2 "1:23".data "09:15".data
      (by decide) ?_⟩
  intro j hj
  interval_cases j <;> decide

/-! ### Claim C5: the weekly-schedule parser -/

/-- C5: `parse_course_session` processes each matched segment
independently — the session list is, for every input, the concatenation
over the matched segments of that segment's contribution, where a
segment's contribution keeps exactly the recognized day names of its
`" و "`-split day-list (unrecognized names silently dropped, each
recognized day paired with the segment's normalized start/end) — so a
segment with no recognized day contributes nothing without blocking later
segments; the example with days `شنبه و دوشنبه` yields exactly days 0 and
2 with times `09:00`/`10:30`, and an example whose first segment has an
unrecognized day still parses the second segment. -/
theorem parse_course_session_spec :
    (∀ txt : String, parse_course_session txt =
      (finditerSessions txt.data).flatMap segSessions) ∧
    parse_course_session "شنبه و دوشنبه از 9:0 تا 10:30" =
      [⟨0, "09:00", "10:30"⟩, ⟨2, "09:00", "10:30"⟩] ∧
    (finditerSessions "فلان از 9:0 تا 10:0 شنبه از 8:0 تا 9:0".data).length = 2 ∧
    parse_course_session "فلان از 9:0 تا 10:0 شنبه از 8:0 تا 9:0" =
      [⟨0, "08:00", "09:00"⟩] :=
  ⟨parse_course_session_eq, by decide, by decide, by decide⟩

/-! ### The session renderer `_parse_sessions` (send_updates.py / fields.py) -/

/-- `WEEKDAYS` from `_parse_sessions`. -/
def WEEKDAYS : List String :=
  ["شنبه", "یکشنبه", "دوشنبه", "سه‌شنبه", "چهارشنبه", "پنجشنبه", "جمعه"]

/-- Short-circuiting option-valued map, modelling a Python list
comprehension that may raise (here: `IndexError` on a day index). -/
def mapMO {α β : Type} (f : α → Option β) : List α → Option (List β)
  | [] => some []
  | x :: rest =>
    match f x, mapMO f rest with
    | some y, some ys => some (y :: ys)
    | _, _ => none

/-- `_parse_sessions` from `send_updates.py` (identical copy in
`fields.py`): empty input renders the undefined placeholder; if all
sessions share the first session's start/end, one compact line with the
day names joined by `" و "`; otherwise the per-session renderings joined
by `"، "`.  `none` models an `IndexError` from `WEEKDAYS[...]`. -/
def _parse_sessions : List CourseSession → Option String
  | [] => some "تعریف نشده"
  | s0 :: rest =>
    let sessions := s0 :: rest
    let first_st := s0.start_time
    let first_et := s0.end_time
    if sessions.all (fun s => s.start_time = first_st && s.end_time = first_et) then
      (mapMO (fun s => WEEKDAYS.get? s.day_of_week) sessions).map fun days =>
        String.intercalate " و " days ++ " از " ++ first_st ++ " تا " ++ first_et
    else
      (mapMO (fun s => (WEEKDAYS.get? s.day_of_week).map fun day =>
          day ++ " از " ++ s.start_time ++ " تا " ++ s.end_time) sessions).map
        fun parsed => String.intercalate "، " parsed

lemma mapMO_eq_some_map {α β : Type} {f : α → Option β} {g : α → β}
    {l : List α} (h : ∀ x ∈ l, f x = some (g x)) :
    mapMO f l = some (l.map g) := by
  induction l with
  | nil => rfl
  | cons x rest ih =>
    rw [mapMO, h x (List.mem_cons_self _ _), ih (fun y hy => h y (List.mem_cons_of_mem _ hy))]
    rfl

lemma weekdays_get_of_lt {d : Nat} (h : d < 7) :
    WEEKDAYS.get? d = some (WEEKDAYS.getD d "") := by
  interval_cases d <;> rfl

/-! ### Semester/year header and the table extractor (`check_diff`, main.py) -/

/-- Attempt the header pattern `نیمسال (\S+) (\d{4})-(\d{4})` at the
current position, returning the three captured groups. -/
def matchHeaderAt (cs : List Char) : Option (List Char × List Char × List Char) :=
  match lit "نیمسال ".data cs with
  | none => none
  | some r1 =>
    tryAlts (plusAlts (fun c => !pyIsSpace c) r1) fun tok r2 =>
      match lit [' '] r2 with
      | none => none
      | some r3 =>
        match digitsN 4 r3 with
        | none => none
        | some (y1, r4) =>
          match lit ['-'] r4 with
          | none => none
          | some r5 =>
            match digitsN 4 r5 with
            | none => none
            | some (y2, _) => some (tok, y1, y2)

/-- The semester-number mapping of `check_diff`: the two recognized labels
map to 1 and 2, anything else to 3. -/
def semester_of_token (tok : String) : Nat :=
  if tok = "اول" then 1 else if tok = "دوم" then 2 else 3

/-- The header-parsing prefix of `check_diff`: absent header cell or no
pattern match gives `(year, semester) = (0, 0)`; otherwise the year is the
second captured year (`int(m.group(3))`) and the semester comes from the
first token. -/
def parse_semester_year (header_text : Option String) : Nat × Nat :=
  match header_text with
  | none => (0, 0)
  | some t =>
    match reSearch matchHeaderAt t.data with
    | none => (0, 0)
    | some (tok, _, y2) => (digitsVal y2, semester_of_token (String.mk tok))

/-- Python `str.isdigit` (over this application's digit ranges). -/
def pyIsDigitStr (s : String) : Bool :=
  !s.data.isEmpty && s.data.all pyIsDigit

/-- Python `int(text)`: strip, optional sign, non-empty digits; `none`
models `ValueError`. -/
def pyInt (s : String) : Option Int :=
  match pyStrip s.data with
  | '-' :: ds =>
    if !ds.isEmpty && ds.all pyIsDigit then some (-(digitsVal ds : Int)) else none
  | '+' :: ds =>
    if !ds.isEmpty && ds.all pyIsDigit then some ((digitsVal ds : Int)) else none
  | ds =>
    if !ds.isEmpty && ds.all pyIsDigit then some ((digitsVal ds : Int)) else none

/-- The `Course` dataclass of `main.py`, with its field defaults. -/
structure Course where
  Code : String := ""
  Group : Int := 0
  Name : String := ""
  Lecturer : String := ""
  Capacity : Int := 0
  Registered : Int := 0
  Units : Int := 0
  ExamDate : Option String := none
  ExamTime : Option String := none
  Sessions : List CourseSession := []
  Info : Option String := none
  Department : String := ""
  DepartmentCode : Int := 0
  Grade : String := ""
  Year : Nat := 0
  Semester : Nat := 0
deriving DecidableEq, Repr

/-- Cell text at column `i` (`""` when the row is shorter, mirroring the
loop simply never visiting that index so the field keeps its default). -/
def strAt (cells : List String) (i : Nat) : String := (cells.get? i).getD ""

/-- Integer cell at column `i`: parse failures and missing cells keep the
zero default (`with suppress(ValueError)` in the source). -/
def intAt (cells : List String) (i : Nat) : Int :=
  match cells.get? i with
  | none => 0
  | some t => (pyInt t).getD 0

/-- The per-row body of `check_diff`'s table loop: rows whose first cell is
not a digit string are skipped; otherwise fixed column positions map to
fields (0 code, 1 group, 2 units, 3 name, 5 capacity, 6 registered,
7 lecturer, 8 exam date/time, 9 weekly schedule, 11 info). -/
def rowCourseCells (cells : List String) : Option Course :=
  match cells.head? with
  | none => none
  | some first =>
    if pyIsDigitStr first then
      some {
        Code := first
        Group := intAt cells 1
        Units := intAt cells 2
        Name := strAt cells 3
        Capacity := intAt cells 5
        Registered := intAt cells 6
        Lecturer := strAt cells 7
        ExamDate := trim_and_nil_if_empty (parse_exam_date_time (strAt cells 8)).1
        ExamTime := trim_and_nil_if_empty (parse_exam_date_time (strAt cells 8)).2
        Sessions := parse_course_session (strAt cells 9)
        Info :=
          match cells.get? 11 with
          | some t => trim_and_nil_if_empty (some t)
          | none => none }
    else none

/-- The contextual stamping of `check_diff` after the cell loop. -/
def stampCourse (c : Course) (grade : String) (year semester : Nat)
    (depName : String) (depId : Int) : Course :=
  { c with Grade := grade, Year := year, Semester := semester,
           Department := depName, DepartmentCode := depId }

/-- `department_name.replace("_", " ")`. -/
def humanizeDept (depName : String) : String :=
  String.mk (depName.data.map fun c => if c = '_' then ' ' else c)

/-- Grade classification from the first body row's combined text. -/
def classify_grade (firstRowText : Option String) : String :=
  match firstRowText with
  | none => "bs"
  | some txt =>
    if strContains txt "کارشناسی ارشد" then "ms"
    else if strContains txt "دکترا" then "phd"
    else "bs"

/-- One content table: the combined text of its first body row (for grade
classification) and the cell texts of all its rows. -/
structure HtmlTable where
  firstRowText : Option String
  rows : List (List String)

/-- The pure core of `check_diff`: parse the header into year/semester,
then extract every data row of every content table, stamping
grade/year/semester/department context and keying by `"{Code}-{Group}"`. -/
def check_diff_tables (header_text : Option String) (depId : Int)
    (depName : String) (tables : List HtmlTable) : List (String × Course) :=
  let ys := parse_semester_year header_text
  tables.flatMap fun t =>
    t.rows.filterMap fun row =>
      (rowCourseCells row).map fun c =>
        let c2 := stampCourse c (classify_grade t.firstRowText) ys.1 ys.2
          (humanizeDept depName) depId
        (c2.Code ++ "-" ++ toString c2.Group, c2)

/-! ### Lemmas for the header matcher -/

lemma lit_append (p r : List Char) : lit p (p ++ r) = some r := by
  induction p with
  | nil => rfl
  | cons c ps ih => simp [lit, ih]

lemma plusAlts_head {p : Char → Bool} {tok : List Char} (hne : tok ≠ [])
    (htok : ∀ c ∈ tok, p c = true) {s : Char} (hs : p s = false)
    (rest : List Char) :
    ∃ tail, plusAlts p (tok ++ s :: rest) = (tok, s :: rest) :: tail := by
  induction tok with
  | nil => exact absurd rfl hne
  | cons c tok' ih =>
    rw [List.cons_append, plusAlts, if_pos (htok c (List.mem_cons_self _ _))]
    cases tok' with
    | nil =>
      refine ⟨[], ?_⟩
      rw [List.nil_append, plusAlts, hs]
      rfl
    | cons c' tok'' =>
      obtain ⟨tail', htail'⟩ := ih (by simp)
        (fun x hx => htok x (List.mem_cons_of_mem _ hx))
      rw [htail']
      exact ⟨(tail'.map fun pr => (c :: pr.1, pr.2)) ++
        [([c], c' :: (tok'' ++ s :: rest))], by simp⟩

lemma digitsN_exact (ds : List Char) (hd : ∀ c ∈ ds, pyIsDigit c = true)
    (r : List Char) : digitsN ds.length (ds ++ r) = some (ds, r) := by
  induction ds with
  | nil => rfl
  | cons c ds' ih =>
    rw [List.length_cons, List.cons_append, digitsN,
      if_pos (hd c (List.mem_cons_self _ _)),
      ih (fun x hx => hd x (List.mem_cons_of_mem _ hx))]
    rfl

lemma reSearch_head {γ : Type} (m : List Char → Option γ) (cs : List Char)
    (r : γ) (hne : cs ≠ []) (hm : m cs = some r) : reSearch m cs = some r := by
  cases cs with
  | nil => exact absurd rfl hne
  | cons c rest => rw [reSearch, hm]

lemma matchHeaderAt_composed {tok y1 y2 : List Char}
    (htne : tok ≠ []) (htok : ∀ c ∈ tok, pyIsSpace c = false)
    (hy1l : y1.length = 4) (hy1 : ∀ c ∈ y1, pyIsDigit c = true)
    (hy2l : y2.length = 4) (hy2 : ∀ c ∈ y2, pyIsDigit c = true)
    (rest : List Char) :
    matchHeaderAt ("نیمسال ".data ++ (tok ++ (' ' :: (y1 ++ ('-' :: (y2 ++ rest)))))) =
      some (tok, y1, y2) := by
  obtain ⟨tail, htail⟩ := plusAlts_head (p := fun c => !pyIsSpace c) htne
    (fun c hc => by simp [htok c hc]) (s := ' ') (by decide)
    (y1 ++ ('-' :: (y2 ++ rest)))
  have h0 : lit "نیمسال ".data
      ("نیمسال ".data ++ (tok ++ (' ' :: (y1 ++ ('-' :: (y2 ++ rest)))))) =
      some (tok ++ (' ' :: (y1 ++ ('-' :: (y2 ++ rest))))) := lit_append _ _
  have h1 : lit [' '] (' ' :: (y1 ++ ('-' :: (y2 ++ rest)))) =
      some (y1 ++ ('-' :: (y2 ++ rest))) := lit_append [' '] _
  have h2 : digitsN 4 (y1 ++ ('-' :: (y2 ++ rest))) =
      some (y1, '-' :: (y2 ++ rest)) := by
    rw [← hy1l]
    exact digitsN_exact y1 hy1 ('-' :: (y2 ++ rest))
  have h3 : lit ['-'] ('-' :: (y2 ++ rest)) = some (y2 ++ rest) := lit_append ['-'] _
  have h4 : digitsN 4 (y2 ++ rest) = some (y2, rest) := by
    rw [← hy2l]
    exact digitsN_exact y2 hy2 rest
  rw [matchHeaderAt]
  simp only [h0, htail, tryAlts, h1, h2, h3, h4]

lemma check_diff_tables_stamp (hdr : Option String) (depId : Int)
    (depName : String) (tables : List HtmlTable) :
    check_diff_tables hdr depId depName tables =
      (check_diff_tables none depId depName tables).map
        (fun x => (x.1, { x.2 with
                           Year := (parse_semester_year hdr).fst,
                           Semester := (parse_semester_year hdr).snd })) := by
  simp only [check_diff_tables, List.map_flatMap, List.map_filterMap, Option.map_map]
  rfl

/-! ### Claim C9: semester/year header parsing -/

/-- C9: an absent header cell gives `(year, semester) = (0, 0)`; a header
text matching `نیمسال <token> <YYYY>-<YYYY>` nowhere also gives `(0, 0)`;
on a matching header the year is the second captured year and the
semester is 1 or 2 for the two recognized labels and 3 for any other
token; and the table extraction proceeds independently of the header —
the extracted keys are the same with or without a header, with year and
semester stamped as 0 when the header is absent. -/
theorem check_diff_header_spec :
    parse_semester_year none = (0, 0) ∧
    (∀ t : String, (∀ i, matchHeaderAt (t.data.drop i) = none) →
      parse_semester_year (some t) = (0, 0)) ∧
    (∀ tok y1 y2 rest : List Char, tok ≠ [] →
      (∀ c ∈ tok, pyIsSpace c = false) →
      y1.length = 4 → (∀ c ∈ y1, pyIsDigit c = true) →
      y2.length = 4 → (∀ c ∈ y2, pyIsDigit c = true) →
      parse_semester_year (some (String.mk
          ("نیمسال ".data ++ (tok ++ (' ' :: (y1 ++ ('-' :: (y2 ++ rest)))))))) =
        (digitsVal y2, semester_of_token (String.mk tok))) ∧
    semester_of_token "اول" = 1 ∧
    semester_of_token "دوم" = 2 ∧
    (∀ tok : String, tok ≠ "اول" → tok ≠ "دوم" → semester_of_token tok = 3) ∧
    (∀ (depId : Int) (depName : String) (tables : List HtmlTable)
        (hdr : Option String),
      (check_diff_tables none depId depName tables).map Prod.fst =
        (check_diff_tables hdr depId depName tables).map Prod.fst ∧
      ∀ x ∈ check_diff_tables none depId depName tables,
        x.2.Year = 0 ∧ x.2.Semester = 0) := by
  have hnil : matchHeaderAt [] = none := rfl
  refine ⟨rfl, ?_, ?_, rfl, rfl, ?_, ?_⟩
  · intro t h
    rw [parse_semester_year, (reSearch_eq_none_iff _ hnil _).mpr h]
  · intro tok y1 y2 rest htne htok hy1l hy1 hy2l hy2
    have hm := matchHeaderAt_composed htne htok hy1l hy1 hy2l hy2 rest
    have hne : ("نیمسال ".data ++ (tok ++ (' ' :: (y1 ++ ('-' :: (y2 ++ rest)))))) ≠ [] := by
      intro h
      have := congrArg List.length h
      simp at this
    rw [parse_semester_year,
      show (String.mk ("نیمسال ".data ++ (tok ++ (' ' :: (y1 ++ ('-' :: (y2 ++ rest))))))).data
        = ("نیمسال ".data ++ (tok ++ (' ' :: (y1 ++ ('-' :: (y2 ++ rest)))))) from rfl,
      reSearch_head matchHeaderAt _ _ hne hm]
  · intro tok h1 h2
    rw [semester_of_token, if_neg h1, if_neg h2]
  · intro depId depName tables hdr
    constructor
    · rw [check_diff_tables_stamp hdr depId depName tables, List.map_map]
      exact List.map_congr_left fun x _ => rfl
    · intro x hx
      simp only [check_diff_tables, List.mem_flatMap, List.mem_filterMap] at hx
      obtain ⟨t, _, row, _, hrow⟩ := hx
      rw [Option.map_eq_some'] at hrow
      obtain ⟨c, _, hGc⟩ := hrow
      rw [← hGc]
      exact ⟨rfl, rfl⟩

/-- Witness for C9 at concrete headers and a concrete unrecognized
semester token. -/
theorem check_diff_header_spec_witness :
    parse_semester_year (some "نیمسال اول 1403-1404") = (1404, 1) ∧
    parse_semester_year (some "no header") = (0, 0) ∧
    semester_of_token "تابستان" = 3 := by
  refine ⟨?_, ?_, check_diff_header_spec.2.2.2.2.2.1 "تابستان" (by decide) (by decide)⟩
  · have h := check_diff_header_spec.2.2.1 "اول".data "1403".data "1404".data []
      (by decide) (by decide) (by decide) (by decide) (by decide) (by decide)
    exact h
  · refine check_diff_header_spec.2.1 "no header" ?_
    intro i
    rcases Nat.lt_or_ge i 10 with hi | hi
    · interval_cases i <;> decide
    · have hlen : ("no header".data.length) = 9 := rfl
      rw [List.drop_eq_nil_of_le (by omega)]
      rfl

/-! ### Claim C8: the session renderer -/

/-- C8 counterexample: for a non-uniform two-session input the renderer
joins the two per-session renderings with `"، "` on a single line — the
output contains no newline, so each session is not rendered on a line of
its own. -/
theorem parse_sessions_render_counterexample :
    _parse_sessions [⟨0, "08:00", "09:30"⟩, ⟨2, "10:00", "11:30"⟩] =
      some "شنبه از 08:00 تا 09:30، دوشنبه از 10:00 تا 11:30" ∧
    '\n' ∉ "شنبه از 08:00 تا 09:30، دوشنبه از 10:00 تا 11:30".data := by
  constructor <;> decide

/-- C8 (amended): a non-empty session sequence with uniform start/end
renders as one compact line — the day names joined by `" و "` followed by
one `از <start> تا <end>` suffix; otherwise each session is rendered as
`<day> از <start> تا <end>` and the renderings are joined, on a single
line, by the distinct separator `"، "`; an empty sequence renders as the
explicit undefined placeholder. -/
theorem parse_sessions_render :
    _parse_sessions [] = some "تعریف نشده" ∧
    (∀ (s0 : CourseSession) (rest : List CourseSession),
      (∀ s ∈ s0 :: rest, s.day_of_week < 7) →
      (∀ s ∈ s0 :: rest, s.start_time = s0.start_time ∧ s.end_time = s0.end_time) →
      _parse_sessions (s0 :: rest) =
        some (String.intercalate " و "
            ((s0 :: rest).map fun s => WEEKDAYS.getD s.day_of_week "")
          ++ " از " ++ s0.start_time ++ " تا " ++ s0.end_time)) ∧
    (∀ (s0 : CourseSession) (rest : List CourseSession),
      (∀ s ∈ s0 :: rest, s.day_of_week < 7) →
      ¬(∀ s ∈ s0 :: rest, s.start_time = s0.start_time ∧ s.end_time = s0.end_time) →
      _parse_sessions (s0 :: rest) =
        some (String.intercalate "، "
          ((s0 :: rest).map fun s =>
            WEEKDAYS.getD s.day_of_week "" ++ " از " ++ s.start_time ++ " تا " ++ s.end_time))) := by
  refine ⟨rfl, ?_, ?_⟩
  · intro s0 rest hday huni
    have hcond : (s0 :: rest).all
        (fun s => s.start_time = s0.start_time && s.end_time = s0.end_time) = true := by
      rw [List.all_eq_true]
      intro s hs
      have := huni s hs
      simp [this.1, this.2]
    simp only [_parse_sessions, hcond, if_true]
    rw [mapMO_eq_some_map (fun s hs => weekdays_get_of_lt (hday s hs))]
    rfl
  · intro s0 rest hday hnuni
    have hcond : ¬((s0 :: rest).all
        (fun s => s.start_time = s0.start_time && s.end_time = s0.end_time) = true) := by
      rw [List.all_eq_true]
      intro hall
      refine hnuni fun s hs => ?_
      have := hall s hs
      simp only [Bool.and_eq_true, decide_eq_true_iff] at this
      exact this
    simp only [_parse_sessions, if_neg hcond]
    rw [mapMO_eq_some_map (g := fun s =>
      WEEKDAYS.getD s.day_of_week "" ++ " از " ++ s.start_time ++ " تا " ++ s.end_time)
      (fun s hs => by rw [weekdays_get_of_lt (hday s hs)]; rfl)]
    rfl

/-- Witness for C8 on both branches. -/
theorem parse_sessions_render_witness :
    _parse_sessions [⟨0, "08:00", "09:30"⟩, ⟨2, "08:00", "09:30"⟩] =
      some "شنبه و دوشنبه از 08:00 تا 09:30" ∧
    _parse_sessions [⟨2, "08:00", "09:30"⟩, ⟨5, "10:00", "11:30"⟩] =
      some "دوشنبه از 08:00 تا 09:30، پنجشنبه از 10:00 تا 11:30" := by
  constructor
  · have h := parse_sessions_render.2.1 ⟨0, "08:00", "09:30"⟩ [⟨2, "08:00", "09:30"⟩]
      (by decide) (by decide)
    rw [h]
    decide
  · have h := parse_sessions_render.2.2 ⟨2, "08:00", "09:30"⟩ [⟨5, "10:00", "11:30"⟩]
      (by decide) (by decide)
    rw [h]
    decide

/-! ### Claim C10: parser output is always renderable -/

lemma renderable_of_day_lt {l : List CourseSession}
    (h : ∀ s ∈ l, s.day_of_week < 7) : (_parse_sessions l).isSome = true := by
  cases l with
  | nil => rfl
  | cons s0 rest =>
    simp only [_parse_sessions]
    split
    · rw [mapMO_eq_some_map (fun s hs => weekdays_get_of_lt (h s hs))]
      rfl
    · rw [mapMO_eq_some_map (g := fun s =>
        WEEKDAYS.getD s.day_of_week "" ++ " از " ++ s.start_time ++ " تا " ++ s.end_time)
        (fun s hs => by rw [weekdays_get_of_lt (h s hs)]; rfl)]
      rfl

/-- C10: every `CourseSession` produced by `parse_course_session` has
`day_of_week` in `0..6` (a value of `DAY_OF_WEEK_MAP`), hence the session
renderer never hits an out-of-range weekday index on parser-produced
input: `_parse_sessions` returns `some` result (no `IndexError`). -/
theorem parse_course_session_day_bounds (txt : String) :
    (∀ s ∈ parse_course_session txt, s.day_of_week < 7) ∧
    (_parse_sessions (parse_course_session txt)).isSome = true := by
  have hday : ∀ s ∈ parse_course_session txt, s.day_of_week < 7 := by
    intro s hs
    rw [parse_course_session_eq, List.mem_flatMap] at hs
    obtain ⟨seg, _, hseg⟩ := hs
    rw [segSessions, List.mem_filterMap] at hseg
    obtain ⟨d, _, hd⟩ := hseg
    cases hl : alookup (String.mk (pyStrip d)) DAY_OF_WEEK_MAP with
    | none => rw [hl] at hd; cases hd
    | some i =>
      rw [hl] at hd
      have hval : ∀ p ∈ DAY_OF_WEEK_MAP, p.2 < 7 := by decide
      have hi : i < 7 := hval _ (alookup_mem hl)
      cases hd
      exact hi
  exact ⟨hday, renderable_of_day_lt hday⟩

/-! ### The message chunker (`send_telegram_message`, send_updates.py) -/

/-- `MAX_LENGTH` from `send_updates.py`. -/
def MAX_LENGTH : Nat := 4000

/-- Index of the last `'\n'` in a character list, if any. -/
def lastNLIdx : List Char → Option Nat
  | [] => none
  | c :: rest =>
    match lastNLIdx rest with
    | some i => some (i + 1)
    | none => if c = '\n' then some 0 else none

/-- `text.rfind("\n", 0, MAX_LENGTH)` (with `none` for `-1`). -/
def rfindNL (cs : List Char) : Option Nat := lastNLIdx (cs.take MAX_LENGTH)

/-- The chunking loop of `send_telegram_message`: a text within the
ceiling is one chunk; otherwise split at the last newline before the
ceiling (or, when there is none, at exactly the ceiling) and continue on
the remainder with its leading newlines stripped.  Fuel-bounded; the fuel
`cs.length` always suffices since the remainder shrinks every step. -/
def send_chunks_aux : Nat → List Char → List (List Char)
  | 0, _ => []
  | fuel + 1, cs =>
    if cs.isEmpty then []
    else if cs.length ≤ MAX_LENGTH then [cs]
    else
      let pos := (rfindNL cs).getD MAX_LENGTH
      cs.take pos :: send_chunks_aux fuel ((cs.drop pos).dropWhile (fun c => c = '\n'))

def send_chunks (cs : List Char) : List (List Char) :=
  send_chunks_aux cs.length cs

lemma lastNLIdx_none_iff (l : List Char) : lastNLIdx l = none ↔ '\n' ∉ l := by
  induction l with
  | nil => simp [lastNLIdx]
  | cons c rest ih =>
    rw [lastNLIdx]
    cases hr : lastNLIdx rest with
    | some i =>
      have : '\n' ∈ rest := by
        by_contra hmem
        rw [ih.mpr hmem] at hr
        cases hr
      simp [this]
    | none =>
      by_cases hc : c = '\n'
      · simp [hc]
      · have hcn : ¬('\n' = c) := fun e => hc e.symm
        simp [hc, ih.mp hr, hcn]

lemma lastNLIdx_lt {l : List Char} {p : Nat} (h : lastNLIdx l = some p) :
    p < l.length := by
  induction l generalizing p with
  | nil => cases h
  | cons c rest ih =>
    rw [lastNLIdx] at h
    cases hr : lastNLIdx rest with
    | some i =>
      rw [hr] at h
      injection h with h'
      subst h'
      exact Nat.succ_lt_succ (ih hr)
    | none =>
      rw [hr] at h
      by_cases hc : c = '\n'
      · rw [if_pos hc] at h
        injection h with h'
        subst h'
        exact Nat.succ_pos _
      · rw [if_neg hc] at h
        cases h

lemma lastNLIdx_get {l : List Char} {p : Nat} (h : lastNLIdx l = some p) :
    l.get? p = some '\n' := by
  induction l generalizing p with
  | nil => cases h
  | cons c rest ih =>
    rw [lastNLIdx] at h
    cases hr : lastNLIdx rest with
    | some i =>
      rw [hr] at h
      injection h with h'
      subst h'
      exact ih hr
    | none =>
      rw [hr] at h
      by_cases hc : c = '\n'
      · rw [if_pos hc] at h
        injection h with h'
        subst h'
        show some c = some '\n'
        rw [hc]
      · rw [if_neg hc] at h
        cases h

lemma drop_eq_cons_of_get? {l : List Char} {i : Nat} {c : Char}
    (h : l.get? i = some c) : l.drop i = c :: l.drop (i + 1) := by
  induction l generalizing i with
  | nil => cases h
  | cons d rest ih =>
    cases i with
    | zero =>
      cases h
      rfl
    | succ i => exact ih h

lemma splitOnChar_ne_nil (sep : Char) (l : List Char) :
    splitOnChar sep l ≠ [] := by
  cases l with
  | nil => simp [splitOnChar]
  | cons c rest =>
    rw [splitOnChar]
    split
    · simp
    · cases hr : splitOnChar sep rest <;> simp

lemma splitOnChar_sep_append (sep : Char) (a b : List Char) :
    splitOnChar sep (a ++ sep :: b) =
      splitOnChar sep a ++ splitOnChar sep b := by
  induction a with
  | nil =>
    rw [List.nil_append, splitOnChar]
    simp [splitOnChar]
  | cons c a' ih =>
    rw [List.cons_append, splitOnChar, splitOnChar]
    by_cases hc : c = sep
    · simp only [hc, if_true, ih, List.cons_append]
    · simp only [if_neg hc, List.append_eq, ih]
      cases hsp : splitOnChar sep a' with
      | nil => exact absurd hsp (splitOnChar_ne_nil sep a')
      | cons p ps => simp

lemma splitOnChar_dropWhile (sep : Char) (l : List Char) :
    ∃ k, splitOnChar sep l =
      List.replicate k [] ++ splitOnChar sep (l.dropWhile (fun c => c = sep)) := by
  induction l with
  | nil => exact ⟨0, rfl⟩
  | cons c rest ih =>
    by_cases hc : c = sep
    · obtain ⟨k, hk⟩ := ih
      refine ⟨k + 1, ?_⟩
      rw [splitOnChar, if_pos hc, List.dropWhile_cons_of_pos (by simp [hc]), hk]
      rfl
    · refine ⟨0, ?_⟩
      rw [List.dropWhile_cons_of_neg (by simp [hc])]
      rfl

lemma filter_nonempty_replicate_nil (k : Nat) :
    (List.replicate k ([] : List Char)).filter (fun l => !l.isEmpty) = [] := by
  rw [List.filter_eq_nil_iff]
  intro x hx
  rw [List.eq_of_mem_replicate hx]
  decide

lemma send_chunks_aux_len : ∀ (fuel : Nat) (cs : List Char),
    ∀ ch ∈ send_chunks_aux fuel cs, ch.length ≤ MAX_LENGTH := by
  intro fuel
  induction fuel with
  | zero => intro cs ch h; cases h
  | succ fuel ih =>
    intro cs ch h
    rw [send_chunks_aux] at h
    split at h
    · cases h
    · split at h
      · rename_i hlen
        rw [List.mem_singleton] at h
        rw [h]
        exact hlen
      · rcases List.mem_cons.mp h with rfl | hrec
        · have hpos : (rfindNL cs).getD MAX_LENGTH ≤ MAX_LENGTH := by
            cases hf : rfindNL cs with
            | none => exact le_rfl
            | some p =>
              have := lastNLIdx_lt hf
              rw [List.length_take] at this
              exact le_of_lt (lt_of_lt_of_le this (min_le_left _ _))
          calc (cs.take ((rfindNL cs).getD MAX_LENGTH)).length
              ≤ (rfindNL cs).getD MAX_LENGTH := by
                rw [List.length_take]; exact min_le_left _ _
            _ ≤ MAX_LENGTH := hpos
        · exact ih _ ch hrec

lemma exists_first_sep {sep : Char} {l : List Char} (h : sep ∈ l) :
    ∃ a b, l = a ++ sep :: b ∧ sep ∉ a := by
  induction l with
  | nil => cases h
  | cons c rest ih =>
    by_cases hc : c = sep
    · exact ⟨[], rest, by rw [hc, List.nil_append], by simp⟩
    · have hr : sep ∈ rest := by
        rcases List.mem_cons.mp h with he | hm
        · exact absurd he.symm hc
        · exact hm
      obtain ⟨a, b, hab, hna⟩ := ih hr
      refine ⟨c :: a, b, by rw [List.cons_append, hab], ?_⟩
      intro hmem
      rcases List.mem_cons.mp hmem with he | hm
      · exact hc he.symm
      · exact hna hm

lemma send_chunks_aux_lines : ∀ (fuel : Nat) (cs : List Char),
    cs.length ≤ fuel →
    (∀ line ∈ splitOnChar '\n' cs, line.length < MAX_LENGTH) →
    ((send_chunks_aux fuel cs).map (splitOnChar '\n')).flatten.filter
        (fun l => !l.isEmpty)
      = (splitOnChar '\n' cs).filter (fun l => !l.isEmpty) := by
  intro fuel
  induction fuel with
  | zero =>
    intro cs hfuel _
    have hnil : cs = [] := List.eq_nil_of_length_eq_zero (Nat.le_zero.mp hfuel)
    rw [hnil]
    rfl
  | succ fuel ih =>
    intro cs hfuel hline
    rw [send_chunks_aux]
    split
    · rename_i hemp
      rw [List.isEmpty_iff.mp hemp]
      rfl
    · split
      · simp
      · rename_i hemp hlen
        have hM : MAX_LENGTH < cs.length := Nat.not_le.mp hlen
        have hnlcs : '\n' ∈ cs := by
          by_contra hmem
          have := hline cs (by
            rw [splitOnChar_no_sep '\n' cs hmem]
            exact List.mem_singleton_self _)
          exact hlen (le_of_lt this)
        obtain ⟨a, b, hab, hna⟩ := exists_first_sep hnlcs
        have hsplit0 : splitOnChar '\n' cs = a :: splitOnChar '\n' b := by
          rw [hab]
          exact splitOnChar_append_sep '\n' a hna b
        have halen : a.length < MAX_LENGTH :=
          hline a (by rw [hsplit0]; exact List.mem_cons_self _ _)
        have hget_a : cs.get? a.length = some '\n' := by
          rw [hab, List.get?_append_right le_rfl]
          simp
        have hwin : '\n' ∈ cs.take MAX_LENGTH := by
          have hw : (cs.take MAX_LENGTH).get? a.length = some '\n' := by
            rw [List.get?_take halen]
            exact hget_a
          exact List.get?_mem hw
        cases hf : rfindNL cs with
        | none =>
          rw [rfindNL] at hf
          exact absurd ((lastNLIdx_none_iff _).mp hf) (by simpa using hwin)
        | some p =>
          have hf' : lastNLIdx (cs.take MAX_LENGTH) = some p := by
            rw [rfindNL] at hf
            exact hf
          have hplen : p < (cs.take MAX_LENGTH).length := lastNLIdx_lt hf'
          have hpM : p < MAX_LENGTH :=
            lt_of_lt_of_le hplen (by rw [List.length_take]; exact min_le_left _ _)
          have hget : cs.get? p = some '\n' := by
            have hg := lastNLIdx_get hf'
            rwa [List.get?_take hpM] at hg
          have hdrop : cs.drop p = '\n' :: cs.drop (p + 1) :=
            drop_eq_cons_of_get? hget
          have hcs : cs = cs.take p ++ '\n' :: cs.drop (p + 1) := by
            conv_lhs => rw [← List.take_append_drop p cs]
            rw [hdrop]
          have hsplitp : splitOnChar '\n' cs =
              splitOnChar '\n' (cs.take p) ++ splitOnChar '\n' (cs.drop (p + 1)) := by
            conv_lhs => rw [hcs]
            exact splitOnChar_sep_append '\n' _ _
          have hdw : (cs.drop p).dropWhile (fun c => c = '\n')
              = (cs.drop (p + 1)).dropWhile (fun c => c = '\n') := by
            rw [hdrop, List.dropWhile_cons_of_pos (by simp)]
          have hlen1 : ((cs.drop (p + 1)).dropWhile (fun c => c = '\n')).length ≤ fuel := by
            have h1 : ((cs.drop (p + 1)).dropWhile (fun c => c = '\n')).length
                ≤ (cs.drop (p + 1)).length := (List.dropWhile_sublist _).length_le
            rw [List.length_drop] at h1
            omega
          obtain ⟨k, hkdw⟩ := splitOnChar_dropWhile '\n' (cs.drop (p + 1))
          have hline' : ∀ line ∈ splitOnChar '\n'
              ((cs.drop (p + 1)).dropWhile (fun c => c = '\n')),
              line.length < MAX_LENGTH := by
            intro line hl
            refine hline line ?_
            rw [hsplitp]
            refine List.mem_append_right _ ?_
            rw [hkdw]
            exact List.mem_append_right _ hl
          have hrec := ih ((cs.drop (p + 1)).dropWhile (fun c => c = '\n')) hlen1 hline'
          simp only [hf, Option.getD_some, hdw]
          rw [List.map_cons, List.flatten_cons, List.filter_append, hrec, hsplitp,
            List.filter_append]
          congr 1
          rw [hkdw, List.filter_append, filter_nonempty_replicate_nil, List.nil_append]

/-! ### Claim C7: chunking of long report blocks -/

/-- A newline-free block longer than the ceiling but at most twice the
ceiling is cut mid-line at exactly `MAX_LENGTH`. -/
lemma send_chunks_no_nl {cs : List Char} (hnl : '\n' ∉ cs)
    (hlong : MAX_LENGTH < cs.length)
    (hrest : cs.length - MAX_LENGTH ≤ MAX_LENGTH) :
    send_chunks cs = [cs.take MAX_LENGTH, cs.drop MAX_LENGTH] := by
  have hcsne : cs ≠ [] := by
    intro h
    rw [h] at hlong
    simp [MAX_LENGTH] at hlong
  have hdne : cs.drop MAX_LENGTH ≠ [] := by
    intro h
    have := congrArg List.length h
    rw [List.length_drop] at this
    simp only [List.length_nil] at this
    omega
  have hfind : rfindNL cs = none := by
    rw [rfindNL]
    exact (lastNLIdx_none_iff _).mpr fun hmem => hnl (List.mem_of_mem_take hmem)
  have hdw : (cs.drop MAX_LENGTH).dropWhile (fun c => c = '\n') = cs.drop MAX_LENGTH := by
    cases hd : cs.drop MAX_LENGTH with
    | nil => rfl
    | cons c rest =>
      have hc : c ∈ cs := by
        have : c ∈ cs.drop MAX_LENGTH := by rw [hd]; exact List.mem_cons_self _ _
        exact List.mem_of_mem_drop this
      refine List.dropWhile_cons_of_neg ?_
      simp only [decide_eq_true_iff]
      intro he
      exact hnl (he ▸ hc)
  obtain ⟨m, hm⟩ : ∃ m, cs.length = m + 1 := ⟨cs.length - 1, by omega⟩
  have hmM : MAX_LENGTH ≤ m := by omega
  rw [send_chunks, hm, send_chunks_aux]
  rw [if_neg (fun h => hcsne (List.isEmpty_iff.mp h)),
    if_neg (Nat.not_le.mpr hlong)]
  simp only [hfind, Option.getD_none, hdw]
  congr 1
  obtain ⟨m', hm'⟩ : ∃ m', m = m' + 1 := ⟨m - 1, by
    have : (0 : Nat) < MAX_LENGTH := by rw [MAX_LENGTH]; omega
    omega⟩
  rw [hm', send_chunks_aux]
  rw [if_neg (fun h => hdne (List.isEmpty_iff.mp h)),
    if_pos (by rw [List.length_drop]; exact hrest)]

/-- C7 counterexample: a 4001-character block with no newline is split at
exactly the 4000-character ceiling, in the middle of its single line —
the non-blank lines of the chunks do not reproduce the non-blank line of
the block. -/
theorem send_chunks_midline_counterexample :
    send_chunks (List.replicate 4001 'a') =
      [List.replicate 4000 'a', List.replicate 1 'a'] ∧
    ¬ ((send_chunks (List.replicate 4001 'a')).map (splitOnChar '\n')).flatten.filter
          (fun l => !l.isEmpty)
        = (splitOnChar '\n' (List.replicate 4001 'a')).filter (fun l => !l.isEmpty) := by
  have hmem : ∀ n, '\n' ∉ List.replicate n 'a' := by
    intro n hmem
    rw [List.mem_replicate] at hmem
    cases hmem.2
  have hsplit : ∀ n, splitOnChar '\n' (List.replicate n 'a') = [List.replicate n 'a'] :=
    fun n => splitOnChar_no_sep '\n' _ (hmem n)
  have hchunks : send_chunks (List.replicate 4001 'a') =
      [List.replicate 4000 'a', List.replicate 1 'a'] := by
    rw [send_chunks_no_nl (hmem 4001)
      (by rw [List.length_replicate, MAX_LENGTH]; omega)
      (by rw [List.length_replicate, MAX_LENGTH]; omega)]
    rw [List.take_replicate, List.drop_replicate, MAX_LENGTH]
    rfl
  refine ⟨hchunks, ?_⟩
  intro h
  rw [hchunks, hsplit 4001] at h
  rw [List.map_cons, List.map_cons, List.map_nil, hsplit 4000, hsplit 1] at h
  have h4000 : (List.replicate 4000 'a').isEmpty = false := rfl
  have h1 : (List.replicate 1 'a').isEmpty = false := rfl
  have h4001 : (List.replicate 4001 'a').isEmpty = false := rfl
  have hF : ([[List.replicate 4000 'a'], [List.replicate 1 'a']] :
      List (List (List Char))).flatten
      = [List.replicate 4000 'a', List.replicate 1 'a'] := rfl
  have hL : ([List.replicate 4000 'a', List.replicate 1 'a']).filter
      (fun l => !l.isEmpty) = [List.replicate 4000 'a', List.replicate 1 'a'] := by
    rw [List.filter_cons_of_pos (by rw [h4000]; rfl),
      List.filter_cons_of_pos (by rw [h1]; rfl), List.filter_nil]
  have hR : ([List.replicate 4001 'a']).filter (fun l => !l.isEmpty)
      = [List.replicate 4001 'a'] := by
    rw [List.filter_cons_of_pos (by rw [h4001]; rfl), List.filter_nil]
  rw [hF, hL, hR] at h
  have hlen := congrArg List.length h
  simp only [List.length_cons, List.length_nil] at hlen
  omega

/-- C7 (amended): every chunk emitted by the splitting loop of
`send_telegram_message` has length at most the 4000-character ceiling;
and for blocks all of whose lines are shorter than the ceiling, the split
happens at the last line boundary before the ceiling, never mid-line, and
the chunks carry exactly the non-blank lines of the original block in
order.  The line-boundary guarantee is restricted to such blocks:
`send_chunks_midline_counterexample` exhibits a newline-free block the
code cuts mid-line. -/
theorem send_telegram_chunks_spec :
    (∀ cs : List Char, ∀ ch ∈ send_chunks cs, ch.length ≤ MAX_LENGTH) ∧
    (∀ cs : List Char,
      (∀ line ∈ splitOnChar '\n' cs, line.length < MAX_LENGTH) →
      ((send_chunks cs).map (splitOnChar '\n')).flatten.filter (fun l => !l.isEmpty)
        = (splitOnChar '\n' cs).filter (fun l => !l.isEmpty)) :=
  ⟨fun cs => send_chunks_aux_len cs.length cs,
   fun cs h => send_chunks_aux_lines cs.length cs le_rfl h⟩

/-- Witness for C7 at a concrete two-line block. -/
theorem send_telegram_chunks_spec_witness :
    "a\nb".data.length ≤ MAX_LENGTH ∧
    ((send_chunks "a\nb".data).map (splitOnChar '\n')).flatten.filter
        (fun l => !l.isEmpty)
      = (splitOnChar '\n' "a\nb".data).filter (fun l => !l.isEmpty) :=
  ⟨send_telegram_chunks_spec.1 "a\nb".data "a\nb".data (by decide),
   send_telegram_chunks_spec.2 "a\nb".data (by decide)⟩

end EduWatch
